import Mathlib

/-!
A shallow embedding of the call-number normalization, range-matching and
ranking engine of `src/main.py` (a library shelf-locator service), together
with theorems settling the specification's claims against it. Strings are
lists of characters; optional JSON keys and optional columns are `Option`
values, with `none` meaning the key or cell is absent; numeric cell values
are exact decimals `mant / 10 ^ scale`.
-/

/-- Models the regex class `[0-9]` (ASCII digits). -/
def isDigitC (c : Char) : Bool :=
  decide (48 ≤ c.toNat) && decide (c.toNat ≤ 57)

/-- Models the regex class `[0-9.]` used by `THAI_SUFFIX_RE`'s `num` group. -/
def isNumC (c : Char) : Bool :=
  isDigitC c || decide (c = '.')

/-- Models the regex class `[ก-๙]` (U+0E01 .. U+0E59), the designated suffix script. -/
def isThaiC (c : Char) : Bool :=
  decide (0xE01 ≤ c.toNat) && decide (c.toNat ≤ 0xE59)

/-- Whitespace as recognized by `str.strip()` / regex `\s` (ASCII part; the source,
being Unicode-aware, also strips rare exotic spaces, which no claim involves). -/
def isSpaceC (c : Char) : Bool :=
  decide (c.toNat = 32) || decide (c.toNat = 9) || decide (c.toNat = 10) ||
  decide (c.toNat = 13) || decide (c.toNat = 11) || decide (c.toNat = 12)

/-- Python `str.strip()`: drop whitespace from both ends. -/
def pstrip (l : List Char) : List Char :=
  ((l.dropWhile isSpaceC).reverse.dropWhile isSpaceC).reverse

/-- Python `.replace("–", "-").replace("—", "-")`: en/em dashes become hyphens. -/
def dashFix (l : List Char) : List Char :=
  l.map fun c => if c = '–' ∨ c = '—' then '-' else c

/-- Code-point comparison of strings, as Python `<` on `str`. -/
def strLt : List Char → List Char → Bool
  | [], [] => false
  | [], _ :: _ => true
  | _ :: _, [] => false
  | a :: as, b :: bs =>
    if a.toNat < b.toNat then true
    else if b.toNat < a.toNat then false
    else strLt as bs

/-- Helper for `clean_suffix`: greedily take up to `n` more script characters. -/
def takeThai : Nat → List Char → List Char
  | 0, _ => []
  | _, [] => []
  | n + 1, c :: cs => if isThaiC c then c :: takeThai n cs else []

/-- Source `clean_suffix`: a search for one to three script characters — the first contiguous run of
1–3 script characters, or empty when there is none. -/
def clean_suffix : List Char → List Char
  | [] => []
  | c :: cs => if isThaiC c then c :: takeThai 2 cs else clean_suffix cs

/-- Number of `'.'` characters, to decide Python `float()` parsability. -/
def countDots (l : List Char) : Nat :=
  (l.filter fun c => decide (c = '.')).length

/-- Whether the string contains an ASCII digit. -/
def hasDigit (l : List Char) : Bool := l.any isDigitC

/-- Decimal value of a digit string. -/
def natOfDigits (l : List Char) : Nat :=
  l.foldl (fun n c => n * 10 + (c.toNat - 48)) 0

/-- Number of characters after the first `'.'`. -/
def fracLen (l : List Char) : Nat :=
  ((l.dropWhile fun c => decide (c ≠ '.')).drop 1).length

/-- Python `round(n / d)` for `0 < d`: round half to even. -/
def roundEvenDiv (n : ℤ) (d : ℤ) : ℤ :=
  if 2 * (n - Int.fdiv n d * d) < d then Int.fdiv n d
  else if d < 2 * (n - Int.fdiv n d * d) then Int.fdiv n d + 1
  else if Int.fdiv n d % 2 = 0 then Int.fdiv n d
  else Int.fdiv n d + 1

/-- Number of binary digits of `n`, by fuel-bounded halving (`n` is enough
fuel). -/
def bitsAux : ℕ → ℕ → ℕ
  | 0, _ => 0
  | fuel + 1, n => if n = 0 then 0 else bitsAux fuel (n / 2) + 1

/-- Bit length: `bits n = ⌊log2 n⌋ + 1` for `n ≥ 1`, and `bits 0 = 0`. -/
def bits (n : ℕ) : ℕ := bitsAux n n

/-- For `n, d ≥ 1`, the integer `z` with `2 ^ z ≤ n / d < 2 ^ (z + 1)`. -/
def ilog2 (n d : ℕ) : ℤ :=
  if d * 2 ^ (bits n - 1) ≤ n * 2 ^ (bits d - 1) then (bits n : ℤ) - (bits d : ℤ)
  else (bits n : ℤ) - (bits d : ℤ) - 1

/-- An IEEE binary64 value, as Python holds floats: a finite value `m * 2 ^ e`
(not kept in canonical form — only the value matters downstream) or a signed
infinity. NaN never arises on the modelled paths. -/
inductive F64 where
  | finite (m : ℤ) (e : ℤ)
  | inf (neg : Bool)
  deriving DecidableEq

/-- Exponent of the binary64 grid on which `n / den` is rounded: 52 bits below
the leading bit, floored at the subnormal grid `2 ^ (-1074)`. -/
def f64Scale (n den : ℕ) : ℤ := max (ilog2 n den - 52) (-1074)

/-- Mantissa of `n / den` on that grid, rounded half to even. -/
def f64Mant (n den : ℕ) : ℤ :=
  if 0 ≤ f64Scale n den then
    roundEvenDiv (n : ℤ) ((den * 2 ^ (f64Scale n den).toNat : ℕ) : ℤ)
  else roundEvenDiv ((n * 2 ^ (-f64Scale n den).toNat : ℕ) : ℤ) (den : ℤ)

/-- The binary64 nearest to `num / den` (round to nearest, ties to even),
with overflow to a signed infinity past the end of the double range. -/
def f64OfRat (num : ℤ) (den : ℕ) : F64 :=
  if num = 0 then F64.finite 0 0
  else if 0 ≤ f64Scale num.natAbs den ∧
      ((2 ^ 1024 : ℕ) : ℤ) ≤
        f64Mant num.natAbs den * ((2 ^ (f64Scale num.natAbs den).toNat : ℕ) : ℤ) then
    F64.inf (num < 0)
  else
    F64.finite (if num < 0 then -f64Mant num.natAbs den else f64Mant num.natAbs den)
      (f64Scale num.natAbs den)

/-- An exact decimal number `mant / 10 ^ scale`: the value of a numeric
literal before it is rounded into a binary64 by `floatOfDec`. -/
structure Dec where
  mant : ℤ
  scale : ℕ
  deriving DecidableEq

/-- Exact value of a `[0-9.]` string with at least one digit and at most one
dot: its digits form the mantissa, scaled down by the fractional digit count. -/
def decVal (l : List Char) : Dec :=
  ⟨(natOfDigits (l.filter isDigitC) : ℤ), fracLen l⟩

/-- Python `float()` of a decimal literal: the nearest binary64. A literal
past the double range gives `inf` without raising. -/
def floatOfDec (v : Dec) : F64 := f64OfRat v.mant (10 ^ v.scale)

/-- Python `float(num_part)` for a `[0-9.]` string: succeeds iff there is at
least one digit and at most one decimal point, returning the rounded double
(possibly `inf`). -/
def parseFloat? (l : List Char) : Option F64 :=
  if hasDigit l && decide (countDots l ≤ 1) then some (floatOfDec (decVal l)) else none

/-- IEEE multiplication by 1000 (`v * 1000` in `num_to_key`): the exact
product rounded back to a binary64; infinities propagate. -/
def mulThousand : F64 → F64
  | F64.inf s => F64.inf s
  | F64.finite m e =>
    if 0 ≤ e then f64OfRat (m * 1000 * ((2 ^ e.toNat : ℕ) : ℤ)) 1
    else f64OfRat (m * 1000) (2 ^ (-e).toNat)

/-- Python `int(round(v))` on a float: exact for finite values, an uncaught
`OverflowError` (modelled as `none`) at infinity. -/
def pyRound : F64 → Option ℤ
  | F64.inf _ => none
  | F64.finite m e =>
    some (if 0 ≤ e then m * ((2 ^ e.toNat : ℕ) : ℤ)
      else roundEvenDiv m (((2 ^ (-e).toNat : ℕ) : ℤ)))

/-- The comparison `v < 1000` on a float. -/
def f64LtThousand : F64 → Bool
  | F64.inf s => s
  | F64.finite m e =>
    if 0 ≤ e then decide (m * ((2 ^ e.toNat : ℕ) : ℤ) < 1000)
    else decide (m < 1000 * ((2 ^ (-e).toNat : ℕ) : ℤ))

/-- Numeric branch of `num_to_key` (lines 67-71), in IEEE double arithmetic:
below 1000 scale by 1000 and round, else round as is; `none` is the uncaught
`OverflowError` that `int(round(v))` raises at infinity. -/
def num_to_key_val (v : F64) : Option ℤ :=
  if f64LtThousand v then pyRound (mulThousand v) else pyRound v

/-- A float that is not negative: a non-negative finite value or `+inf`. -/
def f64Nonneg : F64 → Prop
  | F64.finite m _ => 0 ≤ m
  | F64.inf s => s = false

/-- The group of `re.search(r"([0-9]+(?:\.[0-9]+)?)", s)` starting at a digit
run. -/
def grabNum (l : List Char) : List Char :=
  match l.dropWhile isDigitC with
  | '.' :: r2 =>
    if r2.takeWhile isDigitC = [] then l.takeWhile isDigitC
    else l.takeWhile isDigitC ++ '.' :: r2.takeWhile isDigitC
  | _ => l.takeWhile isDigitC

/-- Leftmost match of `[0-9]+(?:\.[0-9]+)?`: scan for the first digit. -/
def findNumGroup : List Char → Option (List Char)
  | [] => none
  | c :: cs => if isDigitC c then some (grabNum (c :: cs)) else findNumGroup cs

/-- String branch of `num_to_key` (lines 73-82): extract the first number and
canonicalize it. `some none` is a returned Python `None`; the outer `none` is
the uncaught `OverflowError` when the number's double value is infinite. -/
def num_to_key_str (x : List Char) : Option (Option ℤ) :=
  match findNumGroup (pstrip x) with
  | none => some none
  | some g => (num_to_key_val (floatOfDec (decVal g))).map some

/-- One attempt of `THAI_SUFFIX_RE` at this position: a nonempty `[0-9.]` run, then
whitespace, then at most 3 script characters which must end the string. -/
def matchAt (l : List Char) : Option (List Char × List Char) :=
  match l with
  | [] => none
  | c :: _ =>
    if isNumC c then
      if decide (((l.dropWhile isNumC).dropWhile isSpaceC).length ≤ 3) &&
          ((l.dropWhile isNumC).dropWhile isSpaceC).all isThaiC then
        some (l.takeWhile isNumC, (l.dropWhile isNumC).dropWhile isSpaceC)
      else none
    else none

/-- Full `THAI_SUFFIX_RE` search: leftmost position at which the anchored pattern matches. -/
def findMatch : List Char → Option (List Char × List Char)
  | [] => none
  | c :: cs =>
    match matchAt (c :: cs) with
    | some r => some r
    | none => findMatch cs

/-- Source `normalize_call_number` (lines 85-128). The outer `none` models
the uncaught `OverflowError` that escapes `num_to_key` when the numeric value
reaches infinity; the `float(num_part)` call itself is inside a `try` and
returns `inf` rather than raising. -/
def normalize_call_number (raw : List Char) : Option (Option ℤ × List Char) :=
  if raw = [] then some (none, [])
  else
    match findMatch (dashFix (pstrip raw)) with
    | none => (num_to_key_str (dashFix (pstrip raw))).map fun k => (k, [])
    | some (numg, sufg) =>
      if '.' ∈ pstrip numg then
        match parseFloat? (pstrip numg) with
        | none => some (none, clean_suffix sufg)
        | some v => (num_to_key_val v).map fun k => (some k, clean_suffix sufg)
      else
        if ((pstrip numg).filter isDigitC).length ≤ 3 then
          if (pstrip numg).filter isDigitC = [] then some (none, clean_suffix sufg)
          else some (some ((natOfDigits ((pstrip numg).filter isDigitC) : ℤ) * 1000),
            clean_suffix sufg)
        else
          match parseFloat? (((pstrip numg).filter isDigitC).take 3 ++
              '.' :: ((pstrip numg).filter isDigitC).drop 3) with
          | none => some (none, clean_suffix sufg)
          | some v => (num_to_key_val v).map fun k => (some k, clean_suffix sufg)

/-- One spreadsheet row as handed to `load_data`, after the `to_float`/`to_int`
column coercions (lines 152-158) and with missing cells as `none`/empty.
Numeric cells are binary64 floats, as `to_float` leaves them. -/
structure RawRow where
  range_start_num : Option F64 := none
  range_end_num : Option F64 := none
  row : Option ℤ := none
  shelf_level : Option ℤ := none
  locker : Option ℤ := none
  building_floor : Option ℤ := none
  id : List Char := []
  side : List Char := []
  category : List Char := []
  call_range : List Char := []
  map_url : List Char := []
  range_start_raw : List Char := []
  range_end_raw : List Char := []
  range_start_suffix : List Char := []
  range_end_suffix : List Char := []
  deriving DecidableEq

/-- A row dict after `load_data` enrichment survived the validity filter:
`start_key`/`end_key` are the parsed integer keys. -/
structure Entry where
  id : List Char := []
  side : List Char := []
  category : List Char := []
  call_range : List Char := []
  map_url : List Char := []
  range_start_raw : List Char := []
  range_end_raw : List Char := []
  row : Option ℤ := none
  shelf_level : Option ℤ := none
  locker : Option ℤ := none
  building_floor : Option ℤ := none
  start_key : ℤ := 0
  end_key : ℤ := 0
  start_suffix_clean : List Char := []
  end_suffix_clean : List Char := []
  deriving DecidableEq

/-- Line 169: `num_to_key(range_start_num if not None else range_start_raw)`.
The outer `none` is an `OverflowError` escaping `num_to_key`. -/
def keyOf (numCol : Option F64) (rawCol : List Char) : Option (Option ℤ) :=
  match numCol with
  | some v => (num_to_key_val v).map some
  | none => num_to_key_str (pstrip rawCol)

/-- The enriched dictionary appended at line 180, given the parsed keys. -/
def mkEntry (r : RawRow) (a b : ℤ) : Entry :=
  { id := pstrip r.id
    side := pstrip r.side
    category := pstrip r.category
    call_range := pstrip r.call_range
    map_url := pstrip r.map_url
    range_start_raw := pstrip r.range_start_raw
    range_end_raw := pstrip r.range_end_raw
    row := r.row
    shelf_level := r.shelf_level
    locker := r.locker
    building_floor := r.building_floor
    start_key := a
    end_key := b
    start_suffix_clean := clean_suffix (pstrip r.range_start_suffix)
    end_suffix_clean := clean_suffix (pstrip r.range_end_suffix) }

/-- Lines 161-178: string columns stripped, keys built, suffixes cleaned.
`some none` is a row dropped because a key fails to parse; the outer `none`
is an `OverflowError` raised while a key is built, aborting the whole load. -/
def enrich? (r : RawRow) : Option (Option Entry) :=
  match keyOf r.range_start_num r.range_start_raw with
  | none => none
  | some ks =>
    match keyOf r.range_end_num r.range_end_raw with
    | none => none
    | some ke =>
      match ks, ke with
      | some a, some b => some (some (mkEntry r a b))
      | _, _ => some none

/-- The `load_data` row loop: keep enriched rows, silently skip rows whose
keys fail to parse; a row that raises while its keys are built aborts the
whole construction (`none`). -/
def load_data : List RawRow → Option (List Entry)
  | [] => some []
  | r :: rs =>
    match enrich? r with
    | none => none
    | some none => load_data rs
    | some (some e) => (load_data rs).map fun es => e :: es

/-- Source `match_row` (lines 187-215). -/
def match_row (d : Entry) (q_key : ℤ) (q_suffix : List Char) (strict_suffix : Bool) : Bool :=
  if q_key < d.start_key ∨ d.end_key < q_key then false
  else if strict_suffix = false then true
  else if d.start_key < q_key ∧ q_key < d.end_key then true
  else if q_key = d.start_key ∧ d.start_suffix_clean ≠ [] ∧
      strLt (clean_suffix q_suffix) d.start_suffix_clean then false
  else if q_key = d.end_key ∧ d.end_suffix_clean ≠ [] ∧
      strLt d.end_suffix_clean (clean_suffix q_suffix) then false
  else true

/-- Source `span_key` (lines 218-219). -/
def span_key (d : Entry) : ℤ := |d.end_key - d.start_key|

/-- Sentinel used for absent location fields when ranking. -/
def sentinel : ℤ := 10 ^ 9

/-- The Python sort key tuple. -/
def rankTuple (d : Entry) : ℤ × ℤ × ℤ × ℤ :=
  (span_key d, d.row.getD sentinel, d.shelf_level.getD sentinel, d.locker.getD sentinel)

/-- Python's ascending lexicographic comparison of 4-tuples of ints. -/
def tupLe (a b : ℤ × ℤ × ℤ × ℤ) : Prop :=
  a.1 < b.1 ∨ (a.1 = b.1 ∧ (a.2.1 < b.2.1 ∨ (a.2.1 = b.2.1 ∧
    (a.2.2.1 < b.2.2.1 ∨ (a.2.2.1 = b.2.2.1 ∧ a.2.2.2 ≤ b.2.2.2)))))

instance : DecidableRel tupLe := fun a b => by
  unfold tupLe
  infer_instance

/-- The ordering used by `rank_candidates`. -/
def rankRel (a b : Entry) : Prop := tupLe (rankTuple a) (rankTuple b)

instance : DecidableRel rankRel := fun a b => by
  unfold rankRel
  infer_instance

instance : IsTotal Entry rankRel := by
  constructor
  intro a b
  unfold rankRel tupLe
  omega

instance : IsTrans Entry rankRel := by
  constructor
  intro a b c
  unfold rankRel tupLe
  omega

/-- Source `rank_candidates`: a stable sort by the key tuple (Python `sorted` is stable;
any stable sort computes the same list). -/
def rank_candidates (items : List Entry) : List Entry :=
  items.insertionSort rankRel

/-- The `range` sub-object of a call-number result. -/
structure RangeDetail where
  start_raw : List Char
  end_raw : List Char
  start_key : ℤ
  end_key : ℤ
  start_suffix : List Char
  end_suffix : List Char
  deriving DecidableEq

/-- The `location` sub-object of a result. -/
structure Location where
  row : Option ℤ
  shelf_level : Option ℤ
  locker : Option ℤ
  building_floor : Option ℤ
  side : List Char
  deriving DecidableEq

/-- One element of `results`; `range` is omitted (`none`) in text mode. -/
structure ResultItem where
  id : List Char
  call_range : List Char
  category : List Char
  location : Location
  range : Option RangeDetail
  map_url : List Char
  deriving DecidableEq

/-- The JSON object returned by `search`; optional keys are `Option`, `none`
meaning the key is absent from the response. -/
structure Response where
  found : Bool
  mode : List Char
  query : List Char
  normalized : Option (ℤ × List Char)
  count : Option ℕ
  message : Option (List Char)
  results : List ResultItem
  suggest : Option (List (List Char))
  deriving DecidableEq

/-- Python `str(o)` for an optional int, as interpolated into f-strings. -/
def optIntStr (o : Option ℤ) : List Char :=
  match o with
  | none => "None".toList
  | some i => (toString i).toList

/-- A call-number result row (lines 284-306). -/
def mkCallResult (d : Entry) : ResultItem :=
  { id := d.id
    call_range := d.call_range
    category := d.category
    location :=
      { row := d.row
        shelf_level := d.shelf_level
        locker := d.locker
        building_floor := d.building_floor
        side := d.side }
    range := some
      { start_raw := d.range_start_raw
        end_raw := d.range_end_raw
        start_key := d.start_key
        end_key := d.end_key
        start_suffix := d.start_suffix_clean
        end_suffix := d.end_suffix_clean }
    map_url := d.map_url }

/-- A text result row (lines 352-367): no `range` detail. -/
def mkTextResult (d : Entry) : ResultItem :=
  { id := d.id
    call_range := d.call_range
    category := d.category
    location :=
      { row := d.row
        shelf_level := d.shelf_level
        locker := d.locker
        building_floor := d.building_floor
        side := d.side }
    range := none
    map_url := d.map_url }

/-- The call-number-mode summary f-string (lines 311-315). -/
def mkCallMessage (loc : Location) : List Char :=
  "พบหนังสือที่ แถว ".toList ++ optIntStr loc.row ++
  " ชั้น ".toList ++ optIntStr loc.shelf_level ++
  " ล็อค ".toList ++ optIntStr loc.locker ++
  " อาคารชั้น ".toList ++ optIntStr loc.building_floor ++
  " (ด้าน".toList ++ loc.side ++ ")".toList

/-- The text-mode summary f-string (lines 371-374). -/
def mkTextMessage (cat : List Char) (loc : Location) : List Char :=
  "พบหมวด \x27".toList ++ cat ++ "\x27 ที่ แถว ".toList ++ optIntStr loc.row ++
  " ชั้น ".toList ++ optIntStr loc.shelf_level ++
  " ล็อค ".toList ++ optIntStr loc.locker ++
  " อาคารชั้น ".toList ++ optIntStr loc.building_floor ++
  " (ด้าน".toList ++ loc.side ++ ")".toList

/-- Suggestions of the call-number not-found response. -/
def suggestCall : List (List Char) :=
  ["ลองพิมพ์เฉพาะตัวเลข เช่น 370.113 หรือ 370113".toList,
   "ถ้ามีตัวอักษรไทยท้ายเลข ให้ใส่ด้วย เช่น 370.113พ".toList,
   "หรือค้นด้วยชื่อหมวด เช่น สังคมศาสตร์".toList]

/-- Suggestions of the text not-found response. -/
def suggestText : List (List Char) :=
  ["ลองค้นด้วยเลขหมวด เช่น 370.113 หรือ 370113".toList,
   "หรือค้นด้วยคำหมวด เช่น สังคมศาสตร์ / วิทยาศาสตร์".toList]

/-- Python `str.lower()` restricted to ASCII letters (the Thai data involved has
no case; full Unicode case folding agrees on every input appearing here). -/
def lowerC (c : Char) : Char :=
  if decide (65 ≤ c.toNat) ∧ decide (c.toNat ≤ 90) then Char.ofNat (c.toNat + 32) else c

/-- Lower-cased copy of a string. -/
def lowerL (l : List Char) : List Char := l.map lowerC

/-- Python `needle in hay` substring test. -/
def isSub (needle : List Char) : List Char → Bool
  | [] => needle.isEmpty
  | c :: t => needle.isPrefixOf (c :: t) || isSub needle t

/-- The text-mode row predicate (lines 333-336). -/
def textHit (q_low : List Char) (d : Entry) : Bool :=
  isSub q_low (lowerL d.category) || isSub q_low (lowerL d.call_range) ||
    isSub q_low (lowerL d.id)

/-- Source `search` (the `/search` endpoint body, minus FastAPI plumbing). A
`none` result models an uncaught exception: either the `OverflowError` that
`normalize_call_number` can raise on an over-range numeric token, or the
`results[0]` access, kept explicit here. -/
def search (data : List Entry) (q0 : List Char) (limit : ℕ) : Option Response :=
  match normalize_call_number (pstrip q0) with
  | none => none
  | some (some q_key, q_suffix) =>
    if (data.filter fun d =>
        match_row d q_key q_suffix (!(clean_suffix q_suffix).isEmpty)).isEmpty then
      some
        { found := false
          mode := "call_number".toList
          query := pstrip q0
          normalized := some (q_key, clean_suffix q_suffix)
          count := none
          message := none
          results := []
          suggest := some suggestCall }
    else
      match ((rank_candidates (data.filter fun d =>
          match_row d q_key q_suffix (!(clean_suffix q_suffix).isEmpty))).take limit).map
          mkCallResult with
      | [] => none
      | top :: rest =>
        some
          { found := true
            mode := "call_number".toList
            query := pstrip q0
            normalized := some (q_key, clean_suffix q_suffix)
            count := some (top :: rest).length
            message := some (mkCallMessage top.location)
            results := top :: rest
            suggest := none }
  | some (none, _) =>
    if (data.filter (textHit (lowerL (pstrip q0)))).isEmpty then
      some
        { found := false
          mode := "text".toList
          query := pstrip q0
          normalized := none
          count := none
          message := none
          results := []
          suggest := some suggestText }
    else
      match ((data.filter (textHit (lowerL (pstrip q0)))).take limit).map mkTextResult with
      | [] => none
      | top :: rest =>
        some
          { found := true
            mode := "text".toList
            query := pstrip q0
            normalized := none
            count := some (top :: rest).length
            message := some (mkTextMessage top.category top.location)
            results := top :: rest
            suggest := none }

/-- The concrete not-found response used by the C9 witness. -/
def respNF : Response :=
  { found := false
    mode := "call_number".toList
    query := "500".toList
    normalized := some (500000, [])
    count := none
    message := none
    results := []
    suggest := some suggestCall }

-- ===== helper lemmas =====

theorem takeThai_eq (n : ℕ) (l : List Char) :
    takeThai n l = (l.takeWhile isThaiC).take n := by
  induction l generalizing n with
  | nil => cases n <;> simp [takeThai]
  | cons c cs ih =>
    cases n with
    | zero => simp [takeThai]
    | succ m =>
      by_cases h : isThaiC c
      · simp [takeThai, List.takeWhile_cons, h, ih]
      · simp [takeThai, List.takeWhile_cons, h]

-- C5 amended theorem
/-- C5 (amended): `clean_suffix` returns the first contiguous run of script
characters, truncated to three; script characters after a non-script
interruption are dropped, and an input with no script character yields `[]`. -/
theorem clean_suffix_first_run (l : List Char) :
    clean_suffix l = ((l.dropWhile fun c => !isThaiC c).takeWhile isThaiC).take 3 := by
  induction l with
  | nil => simp [clean_suffix]
  | cons c cs ih =>
    by_cases h : isThaiC c
    · simp [clean_suffix, List.dropWhile_cons, List.takeWhile_cons, h, takeThai_eq]
    · simp [clean_suffix, List.dropWhile_cons, h, ih]

/-- C5 counterexample: on `"กxข"` the code keeps only `"ก"`, while the claim
(keep every script character, capped at 3) demands `"กข"`. -/
theorem clean_suffix_claim_cex :
    clean_suffix ("กxข".toList) = "ก".toList ∧
    ("กxข".toList.filter isThaiC).take 3 = "กข".toList ∧
    clean_suffix ("กxข".toList) ≠ ("กxข".toList.filter isThaiC).take 3 := by
  decide

-- C1 amended theorem
/-- C1 (amended): `match_row` is containment plus boundary suffix tie-breaking,
where the comparisons use the cleaned query suffix `clean_suffix q_suffix`
rather than the raw one. -/
theorem match_row_boundary (d : Entry) (k : ℤ) (s : List Char) (strict : Bool) :
    match_row d k s strict = true ↔
      (d.start_key ≤ k ∧ k ≤ d.end_key ∧
        (strict = true → ¬(d.start_key < k ∧ k < d.end_key) →
          ((k = d.start_key → d.start_suffix_clean ≠ [] →
              strLt (clean_suffix s) d.start_suffix_clean = false) ∧
           (k = d.end_key → d.end_suffix_clean ≠ [] →
              strLt d.end_suffix_clean (clean_suffix s) = false)))) := by
  unfold match_row
  split_ifs with h1 h2 h3 h4 h5
  · simp only [false_iff]
    rintro ⟨ha, hb, -⟩
    omega
  · simp only [true_iff, h2]
    refine ⟨by omega, by omega, ?_⟩
    rintro ⟨⟩
  · simp only [true_iff]
    refine ⟨by omega, by omega, ?_⟩
    intro _ hn
    exact absurd h3 hn
  · simp only [false_iff]
    rintro ⟨-, -, h⟩
    have hstrict : strict = true := by
      revert h2
      cases strict <;> simp
    obtain ⟨hs, -⟩ := h hstrict (by omega)
    have := hs h4.1 h4.2.1
    rw [this] at h4
    exact absurd h4.2.2 (by simp)
  · simp only [false_iff]
    rintro ⟨-, -, h⟩
    have hstrict : strict = true := by
      revert h2
      cases strict <;> simp
    obtain ⟨-, hs⟩ := h hstrict (by omega)
    have := hs h5.1 h5.2.1
    rw [this] at h5
    exact absurd h5.2.2 (by simp)
  · simp only [true_iff]
    refine ⟨by omega, by omega, ?_⟩
    intro _ _
    constructor
    · intro hk hss
      by_contra hlt
      exact h4 ⟨hk, hss, by revert hlt; cases strLt (clean_suffix s) d.start_suffix_clean <;> simp⟩
    · intro hk hss
      by_contra hlt
      exact h5 ⟨hk, hss, by revert hlt; cases strLt d.end_suffix_clean (clean_suffix s) <;> simp⟩

/-- C1 counterexample: with range start `(370000, "ข")`, query key on the start
boundary, strict mode, and raw suffix `"ᄀ"` (≥ `"ข"` by code points, so the
claim demands a match), the code cleans the suffix to `""` and rejects. -/
theorem match_row_claim_cex :
    match_row { start_key := 370000, end_key := 371000,
                start_suffix_clean := "ข".toList } 370000 ("ᄀ".toList) true = false ∧
    strLt ("ᄀ".toList) "ข".toList = false ∧
    (370000 : ℤ) ≤ 370000 ∧ (370000 : ℤ) ≤ 371000 ∧ "ข".toList ≠ [] := by
  decide

theorem rank_candidates_perm (l : List Entry) : List.Perm (rank_candidates l) l :=
  List.perm_insertionSort rankRel l

-- C7
/-- C7: the function `rank_candidates` sorts ascending lexicographically by
(span, row-or-sentinel, shelf-or-sentinel, locker-or-sentinel); for a pair of
matches of spans 1000 and 500 the narrower one comes first. -/
theorem rank_candidates_spec (l : List Entry) :
    (rank_candidates l).Sorted rankRel ∧ List.Perm (rank_candidates l) l ∧
      (∀ d1 d2 : Entry, span_key d1 = 1000 → span_key d2 = 500 →
        rank_candidates [d1, d2] = [d2, d1]) := by
  refine ⟨List.sorted_insertionSort rankRel l, rank_candidates_perm l, ?_⟩
  intro d1 d2 h1 h2
  have hno : ¬ rankRel d1 d2 := by
    unfold rankRel tupLe rankTuple
    rw [h1, h2]
    omega
  simp [rank_candidates, List.insertionSort, List.orderedInsert, hno]

/-- C7 witness at concrete entries. -/
theorem rank_candidates_spec_witness :
    rank_candidates [{ start_key := 370000, end_key := 371000 },
                     { start_key := 370000, end_key := 370500 }] =
      [{ start_key := 370000, end_key := 370500 },
       { start_key := 370000, end_key := 371000 }] ∧
    (rank_candidates [{ start_key := 370000, end_key := 371000 },
                      { start_key := 370000, end_key := 370500 }]).Sorted rankRel := by
  constructor
  · exact (rank_candidates_spec []).2.2 _ _ (by decide) (by decide)
  · exact (rank_candidates_spec _).1

-- ===== character class facts =====

theorem isNumC_of_isDigitC {c : Char} (h : isDigitC c = true) : isNumC c = true := by
  simp [isNumC, h]

theorem isDigitC_ne_dot {c : Char} (h : isDigitC c = true) : ¬(c = '.') := by
  rintro rfl
  exact absurd h (by decide)

theorem isDigitC_of_isNumC_ne_dot {c : Char} (h : isNumC c = true) (hd : ¬(c = '.')) :
    isDigitC c = true := by
  simp only [isNumC, Bool.or_eq_true, decide_eq_true_eq] at h
  tauto

theorem isSpaceC_eq_false_of_isNumC {c : Char} (h : isNumC c = true) : isSpaceC c = false := by
  simp only [isNumC, Bool.or_eq_true, decide_eq_true_eq] at h
  rcases h with h | rfl
  · simp only [isDigitC, Bool.and_eq_true, decide_eq_true_eq] at h
    simp only [isSpaceC, Bool.or_eq_false_iff, decide_eq_false_iff_not]
    omega
  · decide

theorem isDigitC_eq_false_of_isSpaceC {c : Char} (h : isSpaceC c = true) : isDigitC c = false := by
  simp only [isSpaceC, Bool.or_eq_true, decide_eq_true_eq] at h
  simp only [isDigitC, Bool.and_eq_false_iff, decide_eq_false_iff_not]
  omega

theorem dashFix_fix_of_isNumC {c : Char} (h : isNumC c = true) :
    (if c = '–' ∨ c = '—' then '-' else c) = c := by
  split_ifs with hd
  · rcases hd with rfl | rfl <;> exact absurd h (by decide)
  · rfl

theorem isDigitC_dashFixC (c : Char) :
    isDigitC (if c = '–' ∨ c = '—' then '-' else c) = isDigitC c := by
  split_ifs with hd
  · rcases hd with rfl | rfl <;> decide
  · rfl

-- ===== list scanning facts =====

theorem dropWhile_eq_self_of_all_false {p : Char → Bool} {l : List Char}
    (h : ∀ c ∈ l, p c = false) : l.dropWhile p = l := by
  cases l with
  | nil => rfl
  | cons c cs => simp [List.dropWhile_cons, h c (List.mem_cons_self c cs)]

theorem takeWhile_eq_self_of_all {p : Char → Bool} {l : List Char}
    (h : ∀ c ∈ l, p c = true) : l.takeWhile p = l := by
  induction l with
  | nil => rfl
  | cons c cs ih =>
    simp only [List.takeWhile_cons, h c (List.mem_cons_self c cs), if_true]
    rw [ih fun d hd => h d (List.mem_cons_of_mem c hd)]

theorem dropWhile_eq_nil_of_all {p : Char → Bool} {l : List Char}
    (h : ∀ c ∈ l, p c = true) : l.dropWhile p = [] := by
  induction l with
  | nil => rfl
  | cons c cs ih =>
    simp only [List.dropWhile_cons, h c (List.mem_cons_self c cs), if_true]
    exact ih fun d hd => h d (List.mem_cons_of_mem c hd)

theorem pstrip_eq_self {l : List Char} (h : ∀ c ∈ l, isSpaceC c = false) : pstrip l = l := by
  unfold pstrip
  rw [dropWhile_eq_self_of_all_false h,
    dropWhile_eq_self_of_all_false fun c hc => h c (List.mem_reverse.mp hc),
    List.reverse_reverse]

theorem dashFix_eq_self {l : List Char} (h : ∀ c ∈ l, isNumC c = true) : dashFix l = l := by
  unfold dashFix
  rw [List.map_congr_left fun c hc => dashFix_fix_of_isNumC (h c hc), List.map_id']

theorem matchAt_all_num {l : List Char} (hne : l ≠ [])
    (hall : ∀ c ∈ l, isNumC c = true) : matchAt l = some (l, []) := by
  cases l with
  | nil => exact absurd rfl hne
  | cons c cs =>
    have hc : isNumC c = true := hall c (List.mem_cons_self c cs)
    have ht : (c :: cs).takeWhile isNumC = c :: cs := takeWhile_eq_self_of_all hall
    have hd : (c :: cs).dropWhile isNumC = [] := dropWhile_eq_nil_of_all hall
    simp [matchAt, hc, ht, hd]

theorem findMatch_all_num {l : List Char} (hne : l ≠ [])
    (hall : ∀ c ∈ l, isNumC c = true) : findMatch l = some (l, []) := by
  cases l with
  | nil => exact absurd rfl hne
  | cons c cs =>
    unfold findMatch
    rw [matchAt_all_num (by simp) hall]

theorem hasDigit_dropWhile_space (l : List Char) :
    hasDigit (l.dropWhile isSpaceC) = hasDigit l := by
  induction l with
  | nil => rfl
  | cons c cs ih =>
    by_cases h : isSpaceC c
    · rw [List.dropWhile_cons, if_pos h, ih]
      unfold hasDigit
      rw [List.any_cons, isDigitC_eq_false_of_isSpaceC h]
      simp
    · rw [List.dropWhile_cons, if_neg (by simp [h])]

theorem hasDigit_reverse (l : List Char) : hasDigit l.reverse = hasDigit l := by
  simp [hasDigit]

theorem hasDigit_pstrip (l : List Char) : hasDigit (pstrip l) = hasDigit l := by
  unfold pstrip
  rw [hasDigit_reverse, hasDigit_dropWhile_space, hasDigit_reverse, hasDigit_dropWhile_space]

theorem hasDigit_dashFix (l : List Char) : hasDigit (dashFix l) = hasDigit l := by
  unfold dashFix hasDigit
  induction l with
  | nil => rfl
  | cons c cs ih => simp [List.any_cons, ih, isDigitC_dashFixC]

theorem findNumGroup_eq_none_iff (l : List Char) :
    findNumGroup l = none ↔ hasDigit l = false := by
  induction l with
  | nil => simp [findNumGroup, hasDigit]
  | cons c cs ih =>
    by_cases h : isDigitC c
    · constructor
      · intro hcontra
        simp [findNumGroup, h] at hcontra
      · intro hfd
        exfalso
        simp [hasDigit, List.any_cons, h] at hfd
    · have heq : findNumGroup (c :: cs) = findNumGroup cs := by simp [findNumGroup, h]
      rw [heq, ih]
      unfold hasDigit
      simp [List.any_cons, h]

theorem num_to_key_str_eq_some_none_iff (x : List Char) :
    num_to_key_str x = some none ↔ hasDigit x = false := by
  unfold num_to_key_str
  cases hg : findNumGroup (pstrip x) with
  | none =>
    have := (findNumGroup_eq_none_iff (pstrip x)).mp hg
    rw [hasDigit_pstrip] at this
    simp [this]
  | some g =>
    have hne : ¬ (findNumGroup (pstrip x) = none) := by simp [hg]
    rw [findNumGroup_eq_none_iff, hasDigit_pstrip] at hne
    constructor
    · intro h
      exfalso
      dsimp only at h
      cases hv : num_to_key_val (floatOfDec (decVal g)) with
      | none => rw [hv] at h; simp at h
      | some k => rw [hv] at h; simp at h
    · intro h
      exact absurd h hne

-- ===== non-negativity =====

theorem roundEvenDiv_nonneg {n d : ℤ} (hn : 0 ≤ n) (hd : 0 < d) :
    0 ≤ roundEvenDiv n d := by
  unfold roundEvenDiv
  have hq : 0 ≤ Int.fdiv n d := Int.fdiv_nonneg hn (le_of_lt hd)
  split_ifs <;> omega

theorem f64Mant_nonneg {n den : ℕ} (hden : 0 < den) : 0 ≤ f64Mant n den := by
  unfold f64Mant
  split_ifs with he
  · exact roundEvenDiv_nonneg (Int.natCast_nonneg n)
      (Int.natCast_pos.mpr (Nat.mul_pos hden (pow_pos (by norm_num) _)))
  · exact roundEvenDiv_nonneg (Int.natCast_nonneg _) (by exact_mod_cast hden)

theorem f64OfRat_nonneg {num : ℤ} {den : ℕ} (h : 0 ≤ num) (hden : 0 < den) :
    f64Nonneg (f64OfRat num den) := by
  have hnn : ¬ (num < 0) := not_lt.mpr h
  unfold f64OfRat
  rw [if_neg hnn]
  split_ifs with h0 hov
  · simp [f64Nonneg]
  · simp [f64Nonneg, hnn]
  · simp only [f64Nonneg]
    exact f64Mant_nonneg hden

theorem mulThousand_nonneg {x : F64} (h : f64Nonneg x) : f64Nonneg (mulThousand x) := by
  cases x with
  | inf s => exact h
  | finite m e =>
    have hm : 0 ≤ m := h
    unfold mulThousand
    dsimp only
    split_ifs with he
    · exact f64OfRat_nonneg
        (mul_nonneg (mul_nonneg hm (by norm_num)) (Int.natCast_nonneg _)) (by norm_num)
    · exact f64OfRat_nonneg (mul_nonneg hm (by norm_num)) (pow_pos (by norm_num) _)

theorem pyRound_nonneg {x : F64} {k : ℤ} (h : f64Nonneg x) (hk : pyRound x = some k) :
    0 ≤ k := by
  cases x with
  | inf s => exact Option.noConfusion hk
  | finite m e =>
    have hm : 0 ≤ m := h
    unfold pyRound at hk
    have hk2 := (Option.some.injEq _ _).mp hk
    rw [← hk2]
    split_ifs
    · exact mul_nonneg hm (Int.natCast_nonneg _)
    · exact roundEvenDiv_nonneg hm (Int.natCast_pos.mpr (pow_pos (by norm_num) _))

theorem num_to_key_val_nonneg {x : F64} {k : ℤ} (h : f64Nonneg x)
    (hk : num_to_key_val x = some k) : 0 ≤ k := by
  unfold num_to_key_val at hk
  split_ifs at hk
  · exact pyRound_nonneg (mulThousand_nonneg h) hk
  · exact pyRound_nonneg h hk

theorem num_to_key_val_inf (s : Bool) : num_to_key_val (F64.inf s) = none := by
  cases s <;> rfl

theorem decVal_mant_nonneg (l : List Char) : 0 ≤ (decVal l).mant := by
  unfold decVal
  exact Int.natCast_nonneg _

theorem floatOfDec_nonneg {v : Dec} (h : 0 ≤ v.mant) : f64Nonneg (floatOfDec v) :=
  f64OfRat_nonneg h (pow_pos (by norm_num) _)

theorem num_to_key_str_nonneg {x : List Char} {k : ℤ}
    (h : num_to_key_str x = some (some k)) : 0 ≤ k := by
  unfold num_to_key_str at h
  cases hg : findNumGroup (pstrip x) with
  | none =>
    rw [hg] at h
    dsimp only at h
    exact Option.noConfusion ((Option.some.injEq _ _).mp h)
  | some g =>
    rw [hg] at h
    dsimp only at h
    cases hv : num_to_key_val (floatOfDec (decVal g)) with
    | none => rw [hv] at h; simp at h
    | some kk =>
      rw [hv] at h
      dsimp only [Option.map] at h
      have h2 := (Option.some.injEq _ _).mp h
      have h3 := (Option.some.injEq _ _).mp h2
      rw [← h3]
      exact num_to_key_val_nonneg (floatOfDec_nonneg (decVal_mant_nonneg g)) hv

theorem normalize_key_nonneg (s : List Char) (k : ℤ) (suf : List Char)
    (h : normalize_call_number s = some (some k, suf)) : 0 ≤ k := by
  unfold normalize_call_number at h
  by_cases hs : s = []
  · rw [if_pos hs] at h
    simp at h
  · rw [if_neg hs] at h
    cases hf : findMatch (dashFix (pstrip s)) with
    | none =>
      rw [hf] at h
      dsimp only at h
      cases hn : num_to_key_str (dashFix (pstrip s)) with
      | none => rw [hn] at h; exact Option.noConfusion h
      | some ko =>
        rw [hn] at h
        dsimp only [Option.map] at h
        have hp := (Option.some.injEq _ _).mp h
        have hko : ko = some k := congrArg Prod.fst hp
        rw [hko] at hn
        exact num_to_key_str_nonneg hn
    | some gt =>
      obtain ⟨numg, sufg⟩ := gt
      rw [hf] at h
      dsimp only at h
      by_cases hdot : '.' ∈ pstrip numg
      · rw [if_pos hdot] at h
        cases hp : parseFloat? (pstrip numg) with
        | none =>
          rw [hp] at h
          dsimp only at h
          have hp2 := (Option.some.injEq _ _).mp h
          have : (none : Option ℤ) = some k := congrArg Prod.fst hp2
          exact Option.noConfusion this
        | some v =>
          rw [hp] at h
          dsimp only at h
          cases hv : num_to_key_val v with
          | none => rw [hv] at h; simp at h
          | some kk =>
            rw [hv] at h
            dsimp only [Option.map] at h
            have hp2 := (Option.some.injEq _ _).mp h
            have hk := (Option.some.injEq _ _).mp (congrArg Prod.fst hp2)
            rw [← hk]
            unfold parseFloat? at hp
            split at hp
            · have hveq : floatOfDec (decVal (pstrip numg)) = v := (Option.some.injEq _ _).mp hp
              rw [← hveq] at hv
              exact num_to_key_val_nonneg (floatOfDec_nonneg (decVal_mant_nonneg _)) hv
            · exact Option.noConfusion hp
      · rw [if_neg hdot] at h
        by_cases hlen : ((pstrip numg).filter isDigitC).length ≤ 3
        · rw [if_pos hlen] at h
          by_cases hnil : (pstrip numg).filter isDigitC = []
          · rw [if_pos hnil] at h
            have hp2 := (Option.some.injEq _ _).mp h
            have : (none : Option ℤ) = some k := congrArg Prod.fst hp2
            exact Option.noConfusion this
          · rw [if_neg hnil] at h
            have hp2 := (Option.some.injEq _ _).mp h
            have hk := (Option.some.injEq _ _).mp (congrArg Prod.fst hp2)
            rw [← hk]
            exact mul_nonneg (Int.natCast_nonneg _) (by norm_num)
        · rw [if_neg hlen] at h
          cases hp : parseFloat? (((pstrip numg).filter isDigitC).take 3 ++
              '.' :: ((pstrip numg).filter isDigitC).drop 3) with
          | none =>
            rw [hp] at h
            dsimp only at h
            have hp2 := (Option.some.injEq _ _).mp h
            have : (none : Option ℤ) = some k := congrArg Prod.fst hp2
            exact Option.noConfusion this
          | some v =>
            rw [hp] at h
            dsimp only at h
            cases hv : num_to_key_val v with
            | none => rw [hv] at h; simp at h
            | some kk =>
              rw [hv] at h
              dsimp only [Option.map] at h
              have hp2 := (Option.some.injEq _ _).mp h
              have hk := (Option.some.injEq _ _).mp (congrArg Prod.fst hp2)
              rw [← hk]
              unfold parseFloat? at hp
              split at hp
              · have hveq : floatOfDec (decVal _) = v := (Option.some.injEq _ _).mp hp
                rw [← hveq] at hv
                exact num_to_key_val_nonneg (floatOfDec_nonneg (decVal_mant_nonneg _)) hv
              · exact Option.noConfusion hp

theorem keyOf_nonneg {numCol : Option F64} {rawCol : List Char} {k : ℤ}
    (hnum : ∀ m e, numCol = some (F64.finite m e) → 0 ≤ m)
    (h : keyOf numCol rawCol = some (some k)) : 0 ≤ k := by
  unfold keyOf at h
  cases hc : numCol with
  | some v =>
    rw [hc] at h
    dsimp only at h
    cases v with
    | inf s =>
      rw [num_to_key_val_inf] at h
      simp at h
    | finite m e =>
      cases hv : num_to_key_val (F64.finite m e) with
      | none => rw [hv] at h; simp at h
      | some kk =>
        rw [hv] at h
        dsimp only [Option.map] at h
        have h2 := (Option.some.injEq _ _).mp h
        have h3 := (Option.some.injEq _ _).mp h2
        rw [← h3]
        have hfn : f64Nonneg (F64.finite m e) := hnum m e hc
        exact num_to_key_val_nonneg hfn hv
  | none =>
    rw [hc] at h
    dsimp only at h
    exact num_to_key_str_nonneg h

theorem load_data_cons_raise {r : RawRow} {rs : List RawRow} (h : enrich? r = none) :
    load_data (r :: rs) = none := by
  simp only [load_data]
  rw [h]

theorem load_data_cons_skip {r : RawRow} {rs : List RawRow} (h : enrich? r = some none) :
    load_data (r :: rs) = load_data rs := by
  simp only [load_data]
  rw [h]

theorem load_data_cons_keep {r : RawRow} {rs : List RawRow} {e : Entry}
    (h : enrich? r = some (some e)) :
    load_data (r :: rs) = (load_data rs).map fun es => e :: es := by
  simp only [load_data]
  rw [h]

theorem load_data_mem {rows : List RawRow} {e : Entry} :
    ∀ {es : List Entry}, load_data rows = some es → e ∈ es →
      ∃ r ∈ rows, enrich? r = some (some e) := by
  induction rows with
  | nil =>
    intro es h he
    simp only [load_data] at h
    have h2 : [] = es := (Option.some.injEq _ _).mp h
    rw [← h2] at he
    simp at he
  | cons r rs ih =>
    intro es h he
    cases hr : enrich? r with
    | none => rw [load_data_cons_raise hr] at h; exact Option.noConfusion h
    | some ko =>
      cases ko with
      | none =>
        rw [load_data_cons_skip hr] at h
        obtain ⟨r2, hr2, he2⟩ := ih h he
        exact ⟨r2, List.mem_cons_of_mem r hr2, he2⟩
      | some e0 =>
        rw [load_data_cons_keep hr] at h
        cases hrs : load_data rs with
        | none => rw [hrs] at h; exact Option.noConfusion h
        | some es2 =>
          rw [hrs] at h
          dsimp only [Option.map] at h
          have h2 := (Option.some.injEq _ _).mp h
          rw [← h2] at he
          rcases List.mem_cons.mp he with rfl | hmem
          · exact ⟨r, List.mem_cons_self r rs, hr⟩
          · obtain ⟨r2, hr2, he2⟩ := ih hrs hmem
            exact ⟨r2, List.mem_cons_of_mem r hr2, he2⟩

theorem enrich?_keys {r : RawRow} {e : Entry} (h : enrich? r = some (some e)) :
    keyOf r.range_start_num r.range_start_raw = some (some e.start_key) ∧
    keyOf r.range_end_num r.range_end_raw = some (some e.end_key) := by
  unfold enrich? at h
  cases ha : keyOf r.range_start_num r.range_start_raw with
  | none => rw [ha] at h; exact Option.noConfusion h
  | some ks =>
    rw [ha] at h
    dsimp only at h
    cases hb : keyOf r.range_end_num r.range_end_raw with
    | none => rw [hb] at h; exact Option.noConfusion h
    | some ke =>
      rw [hb] at h
      dsimp only at h
      cases ks with
      | none => cases ke <;> simp at h
      | some a =>
        cases ke with
        | none => simp at h
        | some b =>
          dsimp only at h
          have h2 := (Option.some.injEq _ _).mp h
          have h3 := (Option.some.injEq _ _).mp h2
          rw [← h3]
          exact ⟨rfl, rfl⟩

/-- C3 (amended): keys from `normalize_call_number` are always non-negative;
keys built by index construction are non-negative provided every numeric
range column present is non-negative (text-parsed keys need no hypothesis). -/
theorem keys_nonneg :
    (∀ (s : List Char) (k : ℤ) (suf : List Char),
        normalize_call_number s = some (some k, suf) → 0 ≤ k) ∧
    (∀ (rows : List RawRow) (es : List Entry),
        (∀ r ∈ rows, (∀ m e, r.range_start_num = some (F64.finite m e) → 0 ≤ m) ∧
            (∀ m e, r.range_end_num = some (F64.finite m e) → 0 ≤ m)) →
        load_data rows = some es →
        ∀ e ∈ es, 0 ≤ e.start_key ∧ 0 ≤ e.end_key) := by
  constructor
  · exact normalize_key_nonneg
  · intro rows es hnn hload e he
    obtain ⟨r, hr, henr⟩ := load_data_mem hload he
    obtain ⟨hks, hke⟩ := enrich?_keys henr
    exact ⟨keyOf_nonneg (hnn r hr).1 hks, keyOf_nonneg (hnn r hr).2 hke⟩

/-- C3 counterexample: a negative numeric start column produces the negative
key -1000 in the built index, violating "every key the system produces is
non-negative". -/
theorem negative_column_key_cex :
    (load_data [{ range_start_num := some (F64.finite (-1) 0),
                  range_end_num := some (F64.finite 0 0) }]).map
        (List.map Entry.start_key) = some [-1000] ∧
    ¬(0 ≤ (-1000 : ℤ)) := by
  decide

/-- C3 witness: the first conjunct applied at the concrete query `"370"`. -/
theorem keys_nonneg_witness :
    normalize_call_number ("370".toList) = some (some 370000, []) ∧ 0 ≤ (370000 : ℤ) :=
  ⟨by decide, keys_nonneg.1 ("370".toList) 370000 [] (by decide)⟩

-- ===== C2: decimal-pointed numeric parts =====

theorem countDots_digits {l : List Char} (h : ∀ c ∈ l, isDigitC c = true) :
    (l.filter fun c => decide (c = '.')) = [] :=
  List.filter_eq_nil_iff.mpr fun c hc hdot =>
    isDigitC_ne_dot (h c hc) (of_decide_eq_true hdot)

/-- A dotted digit run reaches the float branch of the parser: the whole run
is the matched numeric token and its double feeds `num_to_key`. -/
theorem normalize_dotted_run (a b : List Char) (ha : a ≠ []) (_hb : b ≠ [])
    (hda : ∀ c ∈ a, isDigitC c = true) (hdb : ∀ c ∈ b, isDigitC c = true) :
    normalize_call_number (a ++ '.' :: b) =
      (num_to_key_val (floatOfDec (decVal (a ++ '.' :: b)))).map fun k => (some k, []) := by
  have hallnum : ∀ c ∈ a ++ '.' :: b, isNumC c = true := by
    intro c hc
    rcases List.mem_append.mp hc with h | h
    · exact isNumC_of_isDigitC (hda c h)
    · rcases List.mem_cons.mp h with rfl | h
      · decide
      · exact isNumC_of_isDigitC (hdb c h)
  have hne : a ++ '.' :: b ≠ [] := by cases a <;> simp
  have hsp : pstrip (a ++ '.' :: b) = a ++ '.' :: b :=
    pstrip_eq_self fun c hc => isSpaceC_eq_false_of_isNumC (hallnum c hc)
  have hdf : dashFix (a ++ '.' :: b) = a ++ '.' :: b := dashFix_eq_self hallnum
  have hfm : findMatch (a ++ '.' :: b) = some (a ++ '.' :: b, []) :=
    findMatch_all_num hne hallnum
  have hhd : hasDigit (a ++ '.' :: b) = true := by
    cases a with
    | nil => exact absurd rfl ha
    | cons c cs =>
      simp [hasDigit, List.any_append, List.any_cons, hda c (List.mem_cons_self c cs)]
  have hdots : countDots (a ++ '.' :: b) = 1 := by
    unfold countDots
    rw [List.filter_append, countDots_digits hda, List.filter_cons]
    rw [if_pos (by decide), countDots_digits hdb]
    rfl
  have hparse : parseFloat? (a ++ '.' :: b) = some (floatOfDec (decVal (a ++ '.' :: b))) := by
    unfold parseFloat?
    rw [hhd, hdots]
    rfl
  have hdot : '.' ∈ a ++ '.' :: b := List.mem_append_right a (List.mem_cons_self _ _)
  unfold normalize_call_number
  rw [if_neg hne, hsp, hdf, hfm]
  dsimp only
  rw [hsp, if_pos hdot, hparse]
  rfl

/-- C2 (amended): on input `<digits>.<digits>` the parser extracts exactly that
numeric part, takes its binary64 value, and canonicalizes it with `num_to_key`
in IEEE double arithmetic: scaled by 1000 and rounded half-to-even when the
double is below 1000, merely rounded to the nearest integer when it is at
least 1000, and raising `OverflowError` (no key at all) when the double
overflows to infinity. -/
theorem normalize_decimal_key (a b : List Char) (ha : a ≠ []) (_hb : b ≠ [])
    (hda : ∀ c ∈ a, isDigitC c = true) (hdb : ∀ c ∈ b, isDigitC c = true) :
    normalize_call_number (a ++ '.' :: b) =
      (num_to_key_val (floatOfDec (decVal (a ++ '.' :: b)))).map fun k => (some k, []) :=
  normalize_dotted_run a b ha _hb hda hdb

/-- C2 counterexample: `"1000.7"` has a decimal point, but since its double
value is not below 1000 the code rounds it to 1001 instead of multiplying by
1000 (which would give 1000700 as the claim demands). -/
theorem normalize_decimal_key_cex :
    normalize_call_number ("1000.7".toList) = some (some 1001, []) ∧
    (1001 : ℤ) ≠ 1000700 := by
  decide

/-- C2 witness: the amended theorem applied at `"370.1"`, giving key 370100. -/
theorem normalize_decimal_key_witness :
    normalize_call_number (['3', '7', '0'] ++ '.' :: ['1']) =
      (num_to_key_val (floatOfDec (decVal (['3', '7', '0'] ++ '.' :: ['1'])))).map
        (fun k => (some k, [])) ∧
    num_to_key_val (floatOfDec (decVal (['3', '7', '0'] ++ '.' :: ['1']))) = some 370100 :=
  ⟨normalize_decimal_key _ _ (by decide) (by decide) (by decide) (by decide), by decide⟩

-- ===== C4: key-absence characterization =====

theorem matchAt_inv {l g t : List Char} (h : matchAt l = some (g, t)) :
    g ≠ [] ∧ (∀ c ∈ g, isNumC c = true) ∧ (∀ c ∈ g, c ∈ l) := by
  cases l with
  | nil => simp [matchAt] at h
  | cons c cs =>
    unfold matchAt at h
    dsimp only at h
    by_cases hn : isNumC c
    · rw [if_pos hn] at h
      split at h
      · have hpair := (Option.some.injEq _ _).mp h
        have hg : (c :: cs).takeWhile isNumC = g := congrArg Prod.fst hpair
        refine ⟨?_, ?_, ?_⟩
        · rw [← hg]
          simp [List.takeWhile_cons, hn]
        · intro x hx
          rw [← hg] at hx
          exact List.mem_takeWhile_imp hx
        · intro x hx
          rw [← hg] at hx
          exact (List.takeWhile_sublist _).subset hx
      · exact Option.noConfusion h
    · rw [if_neg hn] at h
      exact Option.noConfusion h

theorem findMatch_inv {l g t : List Char} (h : findMatch l = some (g, t)) :
    g ≠ [] ∧ (∀ c ∈ g, isNumC c = true) ∧ (∀ c ∈ g, c ∈ l) := by
  induction l with
  | nil => simp [findMatch] at h
  | cons c cs ih =>
    unfold findMatch at h
    cases hma : matchAt (c :: cs) with
    | some r =>
      rw [hma] at h
      dsimp only at h
      have : r = (g, t) := (Option.some.injEq _ _).mp h
      rw [this] at hma
      exact matchAt_inv hma
    | none =>
      rw [hma] at h
      dsimp only at h
      obtain ⟨h1, h2, h3⟩ := ih h
      exact ⟨h1, h2, fun x hx => List.mem_cons_of_mem c (h3 x hx)⟩

theorem hasDigit_false_of_sub {g m : List Char} (hmem : ∀ c ∈ g, c ∈ m)
    (hm : hasDigit m = false) : hasDigit g = false := by
  by_contra h
  have hg : hasDigit g = true := by revert h; cases hasDigit g <;> simp
  obtain ⟨c, hc, hdc⟩ := List.any_eq_true.mp hg
  have : m.any isDigitC = true := List.any_eq_true.mpr ⟨c, hmem c hc, hdc⟩
  unfold hasDigit at hm
  rw [this] at hm
  exact Bool.noConfusion hm

theorem parseFloat?_eq_none_iff (g : List Char) :
    parseFloat? g = none ↔ (hasDigit g = false ∨ 2 ≤ countDots g) := by
  unfold parseFloat?
  by_cases hhd : hasDigit g = true
  · by_cases hcd : countDots g ≤ 1
    · rw [hhd, decide_eq_true hcd]
      simp [hhd]
      omega
    · rw [hhd, decide_eq_false hcd]
      simp [hhd]
      omega
  · have h0 : hasDigit g = false := by revert hhd; cases hasDigit g <;> simp
    rw [h0]
    simp [h0]

theorem digits_filter_eq_self {g : List Char} (hall : ∀ c ∈ g, isNumC c = true)
    (hdot : '.' ∉ g) : g.filter isDigitC = g :=
  List.filter_eq_self.mpr fun c hc =>
    isDigitC_of_isNumC_ne_dot (hall c hc) fun he => hdot (he ▸ hc)

theorem parseFloat?_rebuilt {digits : List Char} (hall : ∀ c ∈ digits, isDigitC c = true)
    (hlen : ¬ digits.length ≤ 3) :
    parseFloat? (digits.take 3 ++ '.' :: digits.drop 3) =
      some (floatOfDec (decVal (digits.take 3 ++ '.' :: digits.drop 3))) := by
  have h1 : hasDigit (digits.take 3 ++ '.' :: digits.drop 3) = true := by
    cases digits with
    | nil => simp at hlen
    | cons c cs =>
      have hc : isDigitC c = true := hall c (List.mem_cons_self c cs)
      simp [hasDigit, List.any_append, List.any_cons, hc]
  have h2 : countDots (digits.take 3 ++ '.' :: digits.drop 3) = 1 := by
    unfold countDots
    rw [List.filter_append,
      countDots_digits fun c hc => hall c (List.mem_of_mem_take hc),
      List.filter_cons, if_pos (by decide),
      countDots_digits fun c hc => hall c (List.mem_of_mem_drop hc)]
    rfl
  unfold parseFloat?
  rw [h1, h2]
  rfl

/-- C4 (amended): `normalize_call_number` returns (without raising) an absent
key exactly when the input has no digit, or when the trailing numeric token
matched by the suffix pattern is unparseable as a float — no digit (all dots)
or more than one decimal point. On other digit-containing inputs it either
returns a present key or raises `OverflowError` (when the token's double value
is infinite). -/
theorem normalize_none_iff (s : List Char) :
    (normalize_call_number s).map Prod.fst = some none ↔
      (hasDigit s = false ∨
        ∃ g t, findMatch (dashFix (pstrip s)) = some (g, t) ∧
          (hasDigit g = false ∨ 2 ≤ countDots g)) := by
  by_cases hs : s = []
  · subst hs
    constructor
    · intro _
      left
      rfl
    · intro _
      rfl
  · unfold normalize_call_number
    rw [if_neg hs]
    have htrans : hasDigit (dashFix (pstrip s)) = hasDigit s := by
      rw [hasDigit_dashFix, hasDigit_pstrip]
    cases hf : findMatch (dashFix (pstrip s)) with
    | none =>
      dsimp only
      constructor
      · intro h
        left
        cases hn2 : num_to_key_str (dashFix (pstrip s)) with
        | none => rw [hn2] at h; simp at h
        | some ko =>
          rw [hn2] at h
          have hko : ko = none := by simpa using h
          rw [hko] at hn2
          have := (num_to_key_str_eq_some_none_iff _).mp hn2
          rw [hasDigit_dashFix, hasDigit_pstrip] at this
          exact this
      · rintro (hsf | ⟨g, t, hg, -⟩)
        · have h2 : num_to_key_str (dashFix (pstrip s)) = some none := by
            apply (num_to_key_str_eq_some_none_iff _).mpr
            rw [hasDigit_dashFix, hasDigit_pstrip]
            exact hsf
          rw [h2]
          rfl
        · exact Option.noConfusion hg
    | some gt =>
      obtain ⟨g, t⟩ := gt
      dsimp only
      obtain ⟨hgne, hgnum, hgmem⟩ := findMatch_inv hf
      have hsg : pstrip g = g :=
        pstrip_eq_self fun c hc => isSpaceC_eq_false_of_isNumC (hgnum c hc)
      rw [hsg]
      by_cases hdot : '.' ∈ g
      · rw [if_pos hdot]
        cases hp : parseFloat? g with
        | none =>
          dsimp only
          constructor
          · intro _
            right
            exact ⟨g, t, rfl, (parseFloat?_eq_none_iff g).mp hp⟩
          · intro _
            rfl
        | some v =>
          dsimp only
          constructor
          · intro h
            exfalso
            cases hv : num_to_key_val v with
            | none => rw [hv] at h; simp at h
            | some k => rw [hv] at h; simp at h
          · rintro (hsf | ⟨g2, t2, hgg, hbad⟩)
            · exfalso
              have hgf : hasDigit g = false :=
                hasDigit_false_of_sub hgmem (htrans.trans hsf)
              rw [(parseFloat?_eq_none_iff g).mpr (Or.inl hgf)] at hp
              exact Option.noConfusion hp
            · exfalso
              have hpair := (Option.some.injEq _ _).mp hgg
              have hg2 : g = g2 := congrArg Prod.fst hpair
              rw [← hg2] at hbad
              rw [(parseFloat?_eq_none_iff g).mpr hbad] at hp
              exact Option.noConfusion hp
      · rw [if_neg hdot]
        have hdigs : g.filter isDigitC = g := digits_filter_eq_self hgnum hdot
        rw [hdigs]
        have halld : ∀ c ∈ g, isDigitC c = true := fun c hc =>
          isDigitC_of_isNumC_ne_dot (hgnum c hc) fun he => hdot (he ▸ hc)
        have hgd : hasDigit g = true := by
          cases g with
          | nil => exact absurd rfl hgne
          | cons c cs =>
            simp [hasDigit, List.any_cons, halld c (List.mem_cons_self c cs)]
        have hsd : hasDigit s = true := by
          by_contra hcon
          have hsf : hasDigit s = false := by revert hcon; cases hasDigit s <;> simp
          have := hasDigit_false_of_sub hgmem (htrans.trans hsf)
          rw [this] at hgd
          exact Bool.noConfusion hgd
        have hnil : (g.filter fun c => decide (c = '.')) = [] :=
          List.filter_eq_nil_iff.mpr fun c hc hd => hdot (of_decide_eq_true hd ▸ hc)
        have hdots0 : countDots g = 0 := by
          unfold countDots
          rw [hnil]
          rfl
        have hrhs : ¬ (hasDigit s = false ∨
            ∃ g2 t2, (some (g, t) : Option (List Char × List Char)) = some (g2, t2) ∧
              (hasDigit g2 = false ∨ 2 ≤ countDots g2)) := by
          rintro (hsf | ⟨g2, t2, hgg, hbad⟩)
          · rw [hsf] at hsd
            exact Bool.noConfusion hsd
          · have hpair := (Option.some.injEq _ _).mp hgg
            have hg2 : g = g2 := congrArg Prod.fst hpair
            rw [← hg2] at hbad
            rcases hbad with hb | hb
            · rw [hb] at hgd
              exact Bool.noConfusion hgd
            · omega
        by_cases hlen : g.length ≤ 3
        · rw [if_pos hlen, if_neg hgne]
          constructor
          · intro h
            exfalso
            simp at h
          · intro h
            exact absurd h hrhs
        · rw [if_neg hlen, parseFloat?_rebuilt halld hlen]
          dsimp only
          constructor
          · intro h
            exfalso
            cases hv : num_to_key_val (floatOfDec (decVal (g.take 3 ++ '.' :: g.drop 3))) with
            | none => rw [hv] at h; simp at h
            | some k => rw [hv] at h; simp at h
          · intro h
            exact absurd h hrhs

set_option exponentiation.threshold 2000 in
set_option maxRecDepth 10000 in
/-- C4 counterexamples: `"3.7.0"` contains digits yet yields an absent key
(two decimal points make `float()` raise inside the `try`), and 309 nines
followed by `".5"` contains digits yet produces no key at all — its double
value is infinite, so `int(round(v))` raises an uncaught `OverflowError`. -/
theorem normalize_none_cex :
    normalize_call_number ("3.7.0".toList) = some (none, []) ∧
    hasDigit ("3.7.0".toList) = true ∧
    normalize_call_number (List.replicate 309 '9' ++ '.' :: ['5']) = none ∧
    hasDigit (List.replicate 309 '9' ++ '.' :: ['5']) = true := by
  refine ⟨by decide, by decide, ?_, by decide⟩
  have hrun := normalize_dotted_run (List.replicate 309 '9') ['5']
    (by decide) (by decide) (by decide) (by decide)
  have hdv : decVal (List.replicate 309 '9' ++ '.' :: ['5']) =
      ⟨((10 ^ 310 - 5 : ℕ) : ℤ), 1⟩ := by decide
  have hnv : num_to_key_val (floatOfDec (⟨((10 ^ 310 - 5 : ℕ) : ℤ), 1⟩ : Dec)) = none := by decide
  rw [hrun, hdv, hnv]
  rfl

-- ===== C6 / C8: index construction =====

/-- C6 (amended): rows with separate numeric start/end columns are indexed
with keys coerced by `num_to_key` (when that coercion returns); a row
supplying no numeric columns and no digit in its separate raw start/end text
— in particular one carrying only a combined range-text field — is excluded,
because the combined field is never split. -/
theorem load_data_shapes :
    (∀ (r : RawRow) (x y : F64) (a b : ℤ),
      r.range_start_num = some x → r.range_end_num = some y →
      num_to_key_val x = some a → num_to_key_val y = some b →
      ∃ e : Entry, load_data [r] = some [e] ∧ e.start_key = a ∧ e.end_key = b) ∧
    (∀ r : RawRow, r.range_start_num = none → r.range_end_num = none →
      hasDigit r.range_start_raw = false → hasDigit r.range_end_raw = false →
      load_data [r] = some []) := by
  constructor
  · intro r x y a b hx hy ha hb
    have hk1 : keyOf r.range_start_num r.range_start_raw = some (some a) := by
      unfold keyOf
      rw [hx]
      dsimp only
      rw [ha]
      rfl
    have hk2 : keyOf r.range_end_num r.range_end_raw = some (some b) := by
      unfold keyOf
      rw [hy]
      dsimp only
      rw [hb]
      rfl
    have henr : enrich? r = some (some (mkEntry r a b)) := by
      unfold enrich?
      rw [hk1, hk2]
    refine ⟨mkEntry r a b, ?_, rfl, rfl⟩
    rw [load_data_cons_keep henr]
    rfl
  · intro r h1 h2 h3 h4
    have hn1 : num_to_key_str (pstrip r.range_start_raw) = some none := by
      rw [num_to_key_str_eq_some_none_iff, hasDigit_pstrip]
      exact h3
    have hn2 : num_to_key_str (pstrip r.range_end_raw) = some none := by
      rw [num_to_key_str_eq_some_none_iff, hasDigit_pstrip]
      exact h4
    have henr : enrich? r = some none := by
      unfold enrich? keyOf
      rw [h1, h2]
      dsimp only
      rw [hn1, hn2]
    rw [load_data_cons_skip henr]
    rfl

/-- C6 counterexample: a row supplying only a combined range-text field
`"370-380"` is not included in the index, contradicting the claim that
shape-(b) rows are parsed and retained. -/
theorem combined_range_text_cex :
    load_data [{ call_range := ("370-380".toList) }] = some [] ∧
    ({ call_range := ("370-380".toList) } : RawRow).range_start_num = none ∧
    ({ call_range := ("370-380".toList) } : RawRow).range_start_raw = [] := by
  decide

/-- C6 witness: a shape-(a) row is retained and a combined-text-only row is
dropped. -/
theorem load_data_shapes_witness :
    load_data [{ range_start_num := some (F64.finite 370 0),
                 range_end_num := some (F64.finite 380 0) }] ≠ some [] ∧
    load_data [{ call_range := ("370-380".toList), id := ("B1".toList) }] = some [] := by
  constructor
  · obtain ⟨e, he, -, -⟩ := load_data_shapes.1
      { range_start_num := some (F64.finite 370 0), range_end_num := some (F64.finite 380 0) }
      (F64.finite 370 0) (F64.finite 380 0) 370000 380000 rfl rfl (by decide) (by decide)
    rw [he]
    simp
  · exact load_data_shapes.2 { call_range := ("370-380".toList), id := ("B1".toList) }
      rfl rfl (by decide) (by decide)

/-- C8 (amended): when no row raises while its keys are built, index
construction succeeds and equals the order-preserving filter of per-row
enrichment (rows whose keys fail to parse are silently excluded, and splicing
such a row into any position leaves the index unchanged); but a row whose key
construction raises `OverflowError` aborts the whole load, so construction is
not total. -/
theorem load_data_filters :
    (∀ rows : List RawRow, (∀ r ∈ rows, enrich? r ≠ none) →
      load_data rows = some (rows.filterMap fun r => (enrich? r).join)) ∧
    (∀ (pre : List RawRow) (r : RawRow) (post : List RawRow), enrich? r = some none →
      load_data (pre ++ r :: post) = load_data (pre ++ post)) ∧
    (∀ (rows : List RawRow) (r : RawRow), r ∈ rows → enrich? r = none →
      load_data rows = none) := by
  refine ⟨?_, ?_, ?_⟩
  · intro rows hok
    induction rows with
    | nil => rfl
    | cons a as ih =>
      have hne := hok a (List.mem_cons_self a as)
      have ih2 := ih fun r hr => hok r (List.mem_cons_of_mem a hr)
      cases ha : enrich? a with
      | none => exact absurd ha hne
      | some ko =>
        cases ko with
        | none =>
          rw [load_data_cons_skip ha, ih2]
          simp [List.filterMap_cons, ha, Option.join]
        | some e =>
          rw [load_data_cons_keep ha, ih2]
          simp [List.filterMap_cons, ha, Option.join]
  · intro pre r post hr
    induction pre with
    | nil =>
      simp only [List.nil_append]
      exact load_data_cons_skip hr
    | cons a pre2 ih =>
      simp only [List.cons_append]
      cases ha : enrich? a with
      | none => rw [load_data_cons_raise ha, load_data_cons_raise ha]
      | some ko =>
        cases ko with
        | none => rw [load_data_cons_skip ha, load_data_cons_skip ha, ih]
        | some e => rw [load_data_cons_keep ha, load_data_cons_keep ha, ih]
  · intro rows r hmem hr
    induction rows with
    | nil => simp at hmem
    | cons a as ih =>
      rcases List.mem_cons.mp hmem with rfl | hmem2
      · exact load_data_cons_raise hr
      · cases ha : enrich? a with
        | none => exact load_data_cons_raise ha
        | some ko =>
          cases ko with
          | none => rw [load_data_cons_skip ha]; exact ih hmem2
          | some e => rw [load_data_cons_keep ha, ih hmem2]; rfl

set_option exponentiation.threshold 2000 in
set_option maxRecDepth 10000 in
/-- C8 counterexample: a row whose raw start text is 309 nines makes
`num_to_key` call `int(round(inf))` at line 82, raising an uncaught
`OverflowError` at line 169 — index construction aborts instead of dropping
the row. -/
theorem load_data_overflow_cex :
    load_data [{ range_start_raw := List.replicate 309 '9' }] = none := by
  have hps : pstrip (List.replicate 309 '9') = List.replicate 309 '9' := by decide
  have hg : findNumGroup (List.replicate 309 '9') = some (List.replicate 309 '9') := by decide
  have hdv : decVal (List.replicate 309 '9') = ⟨((10 ^ 309 - 1 : ℕ) : ℤ), 0⟩ := by decide
  have hnv : num_to_key_val (floatOfDec (⟨((10 ^ 309 - 1 : ℕ) : ℤ), 0⟩ : Dec)) = none := by decide
  have hks : num_to_key_str (pstrip (List.replicate 309 '9')) = none := by
    unfold num_to_key_str
    rw [hps, hps, hg]
    dsimp only
    rw [hdv, hnv]
    rfl
  have hko : keyOf none (List.replicate 309 '9') = none := by
    unfold keyOf
    dsimp only
    exact hks
  have henr : enrich? { range_start_raw := List.replicate 309 '9' } = none := by
    have hko2 : keyOf ({ range_start_raw := List.replicate 309 '9' } : RawRow).range_start_num
        ({ range_start_raw := List.replicate 309 '9' } : RawRow).range_start_raw = none := hko
    unfold enrich?
    rw [hko2]
  rw [load_data_cons_raise henr]

/-- C8 witness: a parseable row next to the unparseable `"abc"`–`"def"` row. -/
theorem load_data_filters_witness :
    load_data [{ range_start_num := some (F64.finite 100 0),
                 range_end_num := some (F64.finite 200 0) },
               { range_start_raw := ("abc".toList), range_end_raw := ("def".toList) }] =
      some ([{ range_start_num := some (F64.finite 100 0),
               range_end_num := some (F64.finite 200 0) },
             { range_start_raw := ("abc".toList),
               range_end_raw := ("def".toList) }].filterMap fun r => (enrich? r).join) ∧
    load_data ([{ range_start_num := some (F64.finite 100 0),
                  range_end_num := some (F64.finite 200 0) }] ++
        { range_start_raw := ("abc".toList), range_end_raw := ("def".toList) } :: []) =
      load_data ([{ range_start_num := some (F64.finite 100 0),
                    range_end_num := some (F64.finite 200 0) }] ++ []) :=
  ⟨load_data_filters.1 _ (by decide),
   load_data_filters.2.1
     [{ range_start_num := some (F64.finite 100 0), range_end_num := some (F64.finite 200 0) }]
     { range_start_raw := ("abc".toList), range_end_raw := ("def".toList) } [] (by decide)⟩

-- ===== C9 / C10: search =====

/-- C9 (amended): found responses carry `count` equal to the length of
`results`; not-found responses omit the `count` key entirely. -/
theorem count_found_only (data : List Entry) (q : List Char) (limit : ℕ) (r : Response)
    (h : search data q limit = some r) :
    (r.found = true → r.count = some r.results.length) ∧
    (r.found = false → r.count = none) := by
  unfold search at h
  cases hn : normalize_call_number (pstrip q) with
  | none => rw [hn] at h; exact Option.noConfusion h
  | some p =>
    rw [hn] at h
    obtain ⟨fst, snd⟩ := p
    cases fst with
    | some q_key =>
      dsimp only at h
      split at h
      · have hr := (Option.some.injEq _ _).mp h
        rw [← hr]
        exact ⟨fun hf => Bool.noConfusion hf, fun _ => rfl⟩
      · split at h
        · exact Option.noConfusion h
        · have hr := (Option.some.injEq _ _).mp h
          rw [← hr]
          exact ⟨fun _ => rfl, fun hf => Bool.noConfusion hf⟩
    | none =>
      dsimp only at h
      split at h
      · have hr := (Option.some.injEq _ _).mp h
        rw [← hr]
        exact ⟨fun hf => Bool.noConfusion hf, fun _ => rfl⟩
      · split at h
        · exact Option.noConfusion h
        · have hr := (Option.some.injEq _ _).mp h
          rw [← hr]
          exact ⟨fun _ => rfl, fun hf => Bool.noConfusion hf⟩

/-- C9 counterexample: the not-found call-number response for `"999.999"`
against an empty index has no `count` key, though the claim requires one in
every result. -/
theorem count_missing_cex :
    (search [] ("999.999".toList) 5).map Response.count = some none ∧
    (search [] ("999.999".toList) 5).map Response.found = some false := by
  decide

/-- C9 witness: the theorem applied at a concrete query. -/
theorem count_found_only_witness :
    search [] ("500".toList) 5 = some respNF ∧ respNF.count = none :=
  ⟨rfl, (count_found_only [] ("500".toList) 5 respNF rfl).2 rfl⟩

/-- C10 (amended): over any index that `load_data` successfully built, and for
any query whose normalization does not raise, `search` with limit in 1..20
returns a response — the rows that survived construction all carry integer
keys, and `results[0]` is only read on branches with at least one hit. But a
query whose trailing numeric token has an infinite double value makes
`normalize_call_number` raise an uncaught `OverflowError` inside `search`, so
the endpoint is not total. -/
theorem search_total (raws : List RawRow) (es : List Entry) (q : List Char) (limit : ℕ)
    (_hload : load_data raws = some es) (h1 : 1 ≤ limit) (h2 : limit ≤ 20)
    (hq : normalize_call_number (pstrip q) ≠ none) :
    (search es q limit).isSome = true := by
  unfold search
  cases hn : normalize_call_number (pstrip q) with
  | none => exact absurd hn hq
  | some p =>
    obtain ⟨fst, snd⟩ := p
    cases fst with
    | some q_key =>
      dsimp only
      split
      · rfl
      · rename_i hne
        have hne2 : es.filter
            (fun d => match_row d q_key snd (!(clean_suffix snd).isEmpty)) ≠ [] := by
          intro hcon
          exact hne (by rw [hcon]; rfl)
        have hr : rank_candidates (es.filter
            (fun d => match_row d q_key snd (!(clean_suffix snd).isEmpty))) ≠ [] := by
          intro hcon
          have hperm := rank_candidates_perm (es.filter
            (fun d => match_row d q_key snd (!(clean_suffix snd).isEmpty)))
          rw [hcon] at hperm
          exact hne2 hperm.symm.eq_nil
        have ht : (rank_candidates (es.filter
            (fun d => match_row d q_key snd (!(clean_suffix snd).isEmpty)))).take limit ≠ [] := by
          rw [Ne, List.take_eq_nil_iff]
          push_neg
          exact ⟨by omega, hr⟩
        cases hm : (rank_candidates (es.filter
            (fun d => match_row d q_key snd (!(clean_suffix snd).isEmpty)))).take limit with
        | nil => exact absurd hm ht
        | cons a as => rfl
    | none =>
      dsimp only
      split
      · rfl
      · rename_i hne
        have hne2 : es.filter (textHit (lowerL (pstrip q))) ≠ [] := by
          intro hcon
          exact hne (by rw [hcon]; rfl)
        have ht : (es.filter (textHit (lowerL (pstrip q)))).take limit ≠ [] := by
          rw [Ne, List.take_eq_nil_iff]
          push_neg
          exact ⟨by omega, hne2⟩
        cases hm : (es.filter (textHit (lowerL (pstrip q)))).take limit with
        | nil => exact absurd hm ht
        | cons a as => rfl

set_option exponentiation.threshold 2000 in
set_option maxRecDepth 10000 in
/-- C10 counterexample: the query of 309 nines followed by `".5"` drives
`normalize_call_number` into `int(round(inf))`, which raises an uncaught
`OverflowError` inside `search` — no response is produced even over the empty
(successfully built) index with a legal limit. -/
theorem search_overflow_cex :
    load_data [] = some [] ∧
    search [] (List.replicate 309 '9' ++ '.' :: ['5']) 5 = none ∧
    1 ≤ 5 ∧ 5 ≤ 20 := by
  refine ⟨rfl, ?_, by decide, by decide⟩
  have hps : pstrip (List.replicate 309 '9' ++ '.' :: ['5']) =
      List.replicate 309 '9' ++ '.' :: ['5'] := by decide
  have hrun := normalize_dotted_run (List.replicate 309 '9') ['5']
    (by decide) (by decide) (by decide) (by decide)
  have hdv : decVal (List.replicate 309 '9' ++ '.' :: ['5']) =
      ⟨((10 ^ 310 - 5 : ℕ) : ℤ), 1⟩ := by decide
  have hnv : num_to_key_val (floatOfDec (⟨((10 ^ 310 - 5 : ℕ) : ℤ), 1⟩ : Dec)) = none := by decide
  have hnorm : normalize_call_number (pstrip (List.replicate 309 '9' ++ '.' :: ['5'])) =
      none := by
    rw [hps, hrun, hdv, hnv]
    rfl
  unfold search
  rw [hnorm]

/-- C10 witness at a concrete index, query and limit. -/
theorem search_total_witness :
    load_data [] = some [] ∧ 1 ≤ 5 ∧ 5 ≤ 20 ∧
    normalize_call_number (pstrip ("x".toList)) ≠ none ∧
    (search [] ("x".toList) 5).isSome = true :=
  ⟨rfl, by decide, by decide, by decide,
   search_total [] [] ("x".toList) 5 rfl (by decide) (by decide) (by decide)⟩
